import Mathlib

/-!
Verification of the rainfall ingestion pipeline in
`src/db/process_rainfall_data.py`.

The pipeline parses one CSV member out of each per-station zip archive,
builds daily records, aggregates them into monthly and yearly sums
(pandas `groupby(...).sum()`), and upserts the three record sets into a
relational store under a per-call transaction.  Rainfall amounts are
modelled as `Option ℚ` (nullable decimal); tables are association lists
from the uniqueness key of the table to a stored value.
-/

namespace Rainfall

/-- A calendar date, the result of `pd.to_datetime` on a `date` cell. -/
structure Date where
  year : Int
  month : Nat
  day : Nat
deriving DecidableEq, Repr

/-- One row of the CSV member of a station archive: columns `date` and
`rainfall_mm`, the latter nullable. -/
structure CsvRow where
  date : Date
  rainfall_mm : Option ℚ
deriving DecidableEq, Repr

/-- One daily record as produced by `process_daily_data`:
`(station_id, date, rainfall)`. -/
structure DailyRow where
  station_id : String
  date : Date
  rainfall : Option ℚ
deriving DecidableEq, Repr

/-- One monthly aggregate row `(station_id, year, month, rainfall)`. -/
structure MonthlyRow where
  station_id : String
  year : Int
  month : Nat
  rainfall : ℚ
deriving DecidableEq, Repr

/-- One yearly aggregate row `(station_id, year, rainfall)`. -/
structure YearlyRow where
  station_id : String
  year : Int
  rainfall : ℚ
deriving DecidableEq, Repr

/-- `process_daily_data(df, station_id)`: normalises the date, renames
`rainfall_mm` to `rainfall` and attaches `station_id` to every row. -/
def process_daily_data (df : List CsvRow) (station_id : String) : List DailyRow :=
  df.map fun r => ⟨station_id, r.date, r.rainfall_mm⟩

/-- The grouping key of the monthly aggregation:
`(station_id, date.dt.year, date.dt.month)`. -/
abbrev MKey := String × Int × Nat

/-- The grouping key of the yearly aggregation: `(station_id, date.dt.year)`. -/
abbrev YKey := String × Int

def monthKey (r : DailyRow) : MKey := (r.station_id, r.date.year, r.date.month)

def yearKey (r : DailyRow) : YKey := (r.station_id, r.date.year)

/-- Strict order on strings, as lexicographic order on their character
sequences (the order pandas uses on a string-valued group key). -/
def strLT (a b : String) : Prop :=
  a.data < b.data

instance : DecidableRel strLT := fun a b => by unfold strLT; infer_instance

lemma strLT_trichotomy (a b : String) : strLT a b ∨ a = b ∨ strLT b a := by
  rcases lt_trichotomy a.data b.data with h | h | h
  · exact Or.inl h
  · exact Or.inr (Or.inl (String.ext h))
  · exact Or.inr (Or.inr h)

lemma strLT_trans {a b c : String} (h1 : strLT a b) (h2 : strLT b c) :
    strLT a c := by
  unfold strLT at *
  exact lt_trans h1 h2

lemma strLT_irrefl (a : String) : ¬strLT a a := by
  unfold strLT
  exact lt_irrefl a.data

/-- Python `str.endswith`: a suffix test on the character sequence. -/
def strEndsWith (s suffix : String) : Bool :=
  suffix.data.isSuffixOf s.data

/-- Lexicographic order on monthly group keys; pandas `groupby` sorts the
emitted groups by their key. -/
def mkeyLE (a b : MKey) : Prop :=
  strLT a.1 b.1
    ∨ (a.1 = b.1 ∧ (a.2.1 < b.2.1 ∨ (a.2.1 = b.2.1 ∧ a.2.2 ≤ b.2.2)))

/-- Lexicographic order on yearly group keys. -/
def ykeyLE (a b : YKey) : Prop :=
  strLT a.1 b.1 ∨ (a.1 = b.1 ∧ a.2 ≤ b.2)

instance : DecidableRel mkeyLE := fun a b => by unfold mkeyLE; infer_instance

instance : DecidableRel ykeyLE := fun a b => by unfold ykeyLE; infer_instance

instance : IsTotal MKey mkeyLE where
  total a b := by
    unfold mkeyLE
    rcases strLT_trichotomy a.1 b.1 with h | h | h
    · exact Or.inl (Or.inl h)
    · rcases lt_trichotomy a.2.1 b.2.1 with h2 | h2 | h2
      · exact Or.inl (Or.inr ⟨h, Or.inl h2⟩)
      · rcases le_total a.2.2 b.2.2 with h3 | h3
        · exact Or.inl (Or.inr ⟨h, Or.inr ⟨h2, h3⟩⟩)
        · exact Or.inr (Or.inr ⟨h.symm, Or.inr ⟨h2.symm, h3⟩⟩)
      · exact Or.inr (Or.inr ⟨h.symm, Or.inl h2⟩)
    · exact Or.inr (Or.inl h)

instance : IsTrans MKey mkeyLE where
  trans a b c hab hbc := by
    unfold mkeyLE at *
    rcases hab with h | ⟨e, h⟩
    · rcases hbc with h' | ⟨e', _⟩
      · exact Or.inl (strLT_trans h h')
      · exact Or.inl (e' ▸ h)
    · rcases hbc with h' | ⟨e', h'⟩
      · exact Or.inl (e ▸ h')
      · refine Or.inr ⟨e.trans e', ?_⟩
        rcases h with h2 | ⟨e2, h2⟩
        · rcases h' with h2' | ⟨e2', _⟩
          · exact Or.inl (h2.trans h2')
          · exact Or.inl (e2' ▸ h2)
        · rcases h' with h2' | ⟨e2', h2'⟩
          · exact Or.inl (e2 ▸ h2')
          · exact Or.inr ⟨e2.trans e2', h2.trans h2'⟩

instance : IsAntisymm MKey mkeyLE where
  antisymm a b hab hba := by
    obtain ⟨a1, a2, a3⟩ := a
    obtain ⟨b1, b2, b3⟩ := b
    unfold mkeyLE at *
    simp only at hab hba
    rcases hab with h | ⟨e, h⟩
    · rcases hba with h' | ⟨e', _⟩
      · exact absurd (strLT_trans h h') (strLT_irrefl _)
      · exact absurd h (e' ▸ strLT_irrefl _)
    · rcases hba with h' | ⟨e', h'⟩
      · exact absurd h' (e ▸ strLT_irrefl _)
      · subst e
        rcases h with h2 | ⟨e2, h2⟩
        · rcases h' with h2' | ⟨e2', _⟩
          · exact absurd (h2.trans h2') (lt_irrefl _)
          · exact absurd h2 (e2' ▸ lt_irrefl _)
        · rcases h' with h2' | ⟨e2', h2'⟩
          · exact absurd h2' (e2 ▸ lt_irrefl _)
          · subst e2
            exact congrArg _ (congrArg _ (le_antisymm h2 h2'))

instance : IsTotal YKey ykeyLE where
  total a b := by
    unfold ykeyLE
    rcases strLT_trichotomy a.1 b.1 with h | h | h
    · exact Or.inl (Or.inl h)
    · rcases le_total a.2 b.2 with h2 | h2
      · exact Or.inl (Or.inr ⟨h, h2⟩)
      · exact Or.inr (Or.inr ⟨h.symm, h2⟩)
    · exact Or.inr (Or.inl h)

instance : IsTrans YKey ykeyLE where
  trans a b c hab hbc := by
    unfold ykeyLE at *
    rcases hab with h | ⟨e, h⟩
    · rcases hbc with h' | ⟨e', _⟩
      · exact Or.inl (strLT_trans h h')
      · exact Or.inl (e' ▸ h)
    · rcases hbc with h' | ⟨e', h'⟩
      · exact Or.inl (e ▸ h')
      · exact Or.inr ⟨e.trans e', h.trans h'⟩

instance : IsAntisymm YKey ykeyLE where
  antisymm a b hab hba := by
    obtain ⟨a1, a2⟩ := a
    obtain ⟨b1, b2⟩ := b
    unfold ykeyLE at *
    simp only at hab hba
    rcases hab with h | ⟨e, h⟩
    · rcases hba with h' | ⟨e', _⟩
      · exact absurd (strLT_trans h h') (strLT_irrefl _)
      · exact absurd h (e' ▸ strLT_irrefl _)
    · rcases hba with h' | ⟨e', h'⟩
      · exact absurd h' (e ▸ strLT_irrefl _)
      · subst e
        exact congrArg _ (le_antisymm h h')

/-- The non-null-propagating sum pandas `.sum()` computes over a group:
nulls contribute nothing, an all-null group sums to `0`. -/
def sumRain (rows : List DailyRow) : ℚ :=
  (rows.filterMap fun r => r.rainfall).sum

/-- `calculate_monthly_data(daily_data)`: groups the daily rows by
`(station_id, year, month)` — pandas emits one row per distinct key, keys
sorted — and sums the rainfall of each group, skipping nulls. -/
def calculate_monthly_data (daily : List DailyRow) : List MonthlyRow :=
  (List.insertionSort mkeyLE (daily.map monthKey).dedup).map fun k =>
    ⟨k.1, k.2.1, k.2.2, sumRain (daily.filter fun r => monthKey r = k)⟩

/-- `calculate_yearly_data(daily_data)`: same aggregation collapsed to
`(station_id, year)`. -/
def calculate_yearly_data (daily : List DailyRow) : List YearlyRow :=
  (List.insertionSort ykeyLE (daily.map yearKey).dedup).map fun k =>
    ⟨k.1, k.2, sumRain (daily.filter fun r => yearKey r = k)⟩

/-- The uniqueness key of an emitted monthly row. -/
def mRowKey (m : MonthlyRow) : MKey := (m.station_id, m.year, m.month)

/-- The uniqueness key of an emitted yearly row. -/
def yRowKey (y : YearlyRow) : YKey := (y.station_id, y.year)

/-- A persisted table: rows listed in insertion order, each an association
from the uniqueness key of the table to the stored rainfall value. -/
abbrev Table (κ ν : Type) := List (κ × ν)

variable {κ ν : Type} [DecidableEq κ]

/-- Whether the table already holds a row with the given conflict key. -/
def containsKey (t : Table κ ν) (k : κ) : Bool :=
  t.any fun p => p.1 = k

/-- The stored value at a key: the first row whose key matches. -/
def lookupTable (t : Table κ ν) (k : κ) : Option ν :=
  (t.find? fun p => p.1 = k).map fun p => p.2

/-- One `INSERT ... ON CONFLICT (key) DO UPDATE SET rainfall =
EXCLUDED.rainfall` statement: on conflict the stored rainfall value of the
matching row is overwritten in place, otherwise a fresh row is appended. -/
def upsertRow (t : Table κ ν) (k : κ) (v : ν) : Table κ ν :=
  if containsKey t k then t.map fun p => if p.1 = k then (p.1, v) else p
  else t ++ [(k, v)]

/-- The effect of executing the whole statement sequence of one
`insert_data` call, in order. -/
def upsertList (t : Table κ ν) : List (κ × ν) → Table κ ν
  | [] => t
  | r :: rs => upsertList (upsertRow t r.1 r.2) rs

/-- One database connection for one table: the durably committed state and
the state the open transaction sees.  Between `insert_data` calls the two
coincide. -/
structure Conn (κ ν : Type) where
  committed : Table κ ν
  pending : Table κ ν

/-- `execute_batch(cursor, query, data_tuples, page_size=1000)`: executes
the statements in order inside the open transaction and stops at the first
statement the store rejects (`fail r = true`), reporting failure.  The
page size only bounds round trips; it does not change the state reached. -/
def executeBatch (fail : κ × ν → Bool) :
    Table κ ν → List (κ × ν) → Option (Table κ ν)
  | t, [] => some t
  | t, r :: rs => if fail r then none else executeBatch fail (upsertRow t r.1 r.2) rs

/-- The `insert_data(conn, table_name, data)` transaction boundary: run all
batches, then `conn.commit()`; on any failure `conn.rollback()` restores the
committed state and the exception is re-raised.  The returned flag records
whether an exception was raised. -/
def insert_data (fail : κ × ν → Bool) (c : Conn κ ν) (rs : List (κ × ν)) :
    Conn κ ν × Bool :=
  match executeBatch fail c.pending rs with
  | some t => (⟨t, t⟩, false)
  | none => (⟨c.committed, c.committed⟩, true)

/-- The conflict key of the daily table: `(station_id, date)`. -/
abbrev DKey := String × Date

/-- The tuple `insert_data` builds for a daily row. -/
def dailyTuple (r : DailyRow) : DKey × Option ℚ :=
  ((r.station_id, r.date), r.rainfall)

/-- The tuple `insert_data` builds for a monthly row. -/
def monthlyTuple (m : MonthlyRow) : MKey × ℚ :=
  ((m.station_id, m.year, m.month), m.rainfall)

/-- The tuple `insert_data` builds for a yearly row. -/
def yearlyTuple (y : YearlyRow) : YKey × ℚ :=
  ((y.station_id, y.year), y.rainfall)

/-- The three persisted tables with their transaction state. -/
structure DB where
  daily : Conn DKey (Option ℚ)
  monthly : Conn MKey ℚ
  yearly : Conn YKey ℚ

/-- Between top-level calls every connection has no uncommitted work. -/
def DB.wf (db : DB) : Prop :=
  db.daily.pending = db.daily.committed
    ∧ db.monthly.pending = db.monthly.committed
    ∧ db.yearly.pending = db.yearly.committed

/-- Which records the store rejects, one oracle per table.  A record the
store rejects once is rejected whenever it is retried. -/
structure FailModel where
  dailyFail : DKey × Option ℚ → Bool
  monthlyFail : MKey × ℚ → Bool
  yearlyFail : YKey × ℚ → Bool

/-- One pending station archive: its file name and its members, each a
member name together with the parsed rows when the member is tabular. -/
structure Archive where
  name : String
  members : List (String × List CsvRow)

/-- `os.path.basename(zip_path).split('_')[0]`: the text before the first
underscore of the file name. -/
def stationIdOf (name : String) : String :=
  ⟨name.data.takeWhile fun c => !(c == '_')⟩

/-- The member `process_zip_file` opens:
`[f for f in zip_ref.namelist() if f.endswith('.csv')][0]`, the first
member in archive-listing order whose name ends in `.csv`.  An archive with
no such member makes the subscript raise. -/
def findCsv (a : Archive) : Option (String × List CsvRow) :=
  (a.members.filter fun m => strEndsWith m.1 ".csv").head?

/-- The per-archive exceptions that reach the driver. -/
inductive PipeError where
  | missingMember
  | loadError
deriving DecidableEq

/-- `process_zip_file(zip_path, conn)`: derive the station id from the file
name, open the first `.csv` member, build the daily rows, then insert
daily, monthly and yearly data in that order; the first exception
propagates at once, leaving the per-table commits already made in place. -/
def process_zip_file (fm : FailModel) (a : Archive) (db : DB) :
    DB × Option PipeError :=
  match findCsv a with
  | none => (db, some .missingMember)
  | some m =>
    let daily_data := process_daily_data m.2 (stationIdOf a.name)
    let res_d := insert_data fm.dailyFail db.daily (daily_data.map dailyTuple)
    let db1 : DB := ⟨res_d.1, db.monthly, db.yearly⟩
    if res_d.2 then (db1, some .loadError) else
    let monthly_data := calculate_monthly_data daily_data
    let res_m := insert_data fm.monthlyFail db1.monthly (monthly_data.map monthlyTuple)
    let db2 : DB := ⟨db1.daily, res_m.1, db1.yearly⟩
    if res_m.2 then (db2, some .loadError) else
    let yearly_data := calculate_yearly_data daily_data
    let res_y := insert_data fm.yearlyFail db2.yearly (yearly_data.map yearlyTuple)
    let db3 : DB := ⟨db2.daily, db2.monthly, res_y.1⟩
    if res_y.2 then (db3, some .loadError) else (db3, none)

/-- The filesystem and store state the driver threads through a run. -/
structure DriverState where
  dataDir : List String
  processedDir : List String
  db : DB

/-- The per-archive loop of `main`: process the archive; on success
`os.rename` moves its file into the processed directory; on failure the
error is logged, the file stays where it is, and the loop continues with
the next archive. -/
def mainLoop (fm : FailModel) : List Archive → DriverState → DriverState
  | [], st => st
  | a :: rest, st =>
    match process_zip_file fm a st.db with
    | (db1, none) =>
        mainLoop fm rest ⟨st.dataDir.erase a.name, st.processedDir ++ [a.name], db1⟩
    | (db1, some _) =>
        mainLoop fm rest ⟨st.dataDir, st.processedDir, db1⟩

/-- `main()`: list the data directory, keep the files named
`*_rainfall.zip`, and process them in enumeration order. -/
def main (fm : FailModel) (dirListing : List Archive) (db : DB) : DriverState :=
  let zip_files := dirListing.filter fun a => strEndsWith a.name "_rainfall.zip"
  mainLoop fm zip_files ⟨dirListing.map fun a => a.name, [], db⟩

/-- The outcome trace of a run: each archive paired with whether all its
inserts succeeded, plus the final store state. -/
def runTrace (fm : FailModel) : List Archive → DB → List (String × Bool) × DB
  | [], db => ([], db)
  | a :: rest, db =>
    let p := process_zip_file fm a db
    let t := runTrace fm rest p.1
    ((a.name, p.2 = none) :: t.1, t.2)

/-- The archive of the worked example, `001006_rainfall.zip`, holding the
rows `2024-01-01,5.0`, `2024-01-02,0.0` and `2024-02-01,3.0`. -/
def exArchive : Archive :=
  ⟨"001006_rainfall.zip",
    [("001006_rainfall.csv",
      [⟨⟨2024, 1, 1⟩, some 5⟩, ⟨⟨2024, 1, 2⟩, some 0⟩, ⟨⟨2024, 2, 1⟩, some 3⟩])]⟩

/-- A store that accepts every record. -/
def acceptAll : FailModel := ⟨fun _ => false, fun _ => false, fun _ => false⟩

/-- A store that rejects every monthly record but accepts the rest, to
exercise a mid-pipeline load failure. -/
def rejectMonthly : FailModel := ⟨fun _ => false, fun _ => true, fun _ => false⟩

/-- The empty store, all transactions clean. -/
def emptyDB : DB := ⟨⟨[], []⟩, ⟨[], []⟩, ⟨[], []⟩⟩

/-- An archive holding no `.csv` member at all. -/
def noCsvArchive : Archive :=
  ⟨"009999_rainfall.zip", [("notes.txt", []), ("009999_rainfall.dat", [])]⟩

/-!  ## Lemmas about the aggregation step  -/

lemma sumRain_eq_zero {rows : List DailyRow} (h : ∀ r ∈ rows, r.rainfall = none) :
    sumRain rows = 0 := by
  induction rows with
  | nil => rfl
  | cons r rs ih =>
      have hr := h r (List.mem_cons_self r rs)
      unfold sumRain
      rw [List.filterMap_cons, hr]
      exact ih fun x hx => h x (List.mem_cons_of_mem _ hx)

lemma monthlyKeys_nodup (d : List DailyRow) :
    (List.insertionSort mkeyLE (d.map monthKey).dedup).Nodup :=
  ((List.perm_insertionSort mkeyLE _).nodup_iff).mpr (List.nodup_dedup _)

lemma mem_monthlyKeys {d : List DailyRow} {k : MKey} :
    k ∈ List.insertionSort mkeyLE (d.map monthKey).dedup ↔ k ∈ d.map monthKey :=
  ((List.perm_insertionSort mkeyLE _).mem_iff).trans List.mem_dedup

lemma yearlyKeys_nodup (d : List DailyRow) :
    (List.insertionSort ykeyLE (d.map yearKey).dedup).Nodup :=
  ((List.perm_insertionSort ykeyLE _).nodup_iff).mpr (List.nodup_dedup _)

lemma mem_yearlyKeys {d : List DailyRow} {k : YKey} :
    k ∈ List.insertionSort ykeyLE (d.map yearKey).dedup ↔ k ∈ d.map yearKey :=
  ((List.perm_insertionSort ykeyLE _).mem_iff).trans List.mem_dedup

lemma countP_eq_ite_of_nodup {α : Type} [DecidableEq α] {l : List α} (k : α)
    (h : l.Nodup) : (l.countP fun x => x = k) = if k ∈ l then 1 else 0 := by
  induction l with
  | nil => simp
  | cons a l ih =>
      rcases List.nodup_cons.mp h with ⟨ha, hl⟩
      rw [List.countP_cons]
      by_cases hk : a = k
      · subst hk
        simp [ih hl, ha]
      · have hka : ¬k = a := fun h' => hk h'.symm
        simp [hk, ih hl, List.mem_cons, hka]

lemma monthly_rainfall_eq {d : List DailyRow} {m : MonthlyRow}
    (hm : m ∈ calculate_monthly_data d) :
    m.rainfall = sumRain (d.filter fun r => monthKey r = mRowKey m) := by
  rcases List.mem_map.mp hm with ⟨k', _, rfl⟩
  rfl

lemma yearly_rainfall_eq {d : List DailyRow} {y : YearlyRow}
    (hy : y ∈ calculate_yearly_data d) :
    y.rainfall = sumRain (d.filter fun r => yearKey r = yRowKey y) := by
  rcases List.mem_map.mp hy with ⟨k', _, rfl⟩
  rfl

/-!  ## Claim theorems, C1 and C9  -/

/-- C1: the monthly aggregate emits exactly one row per
`(station_id, year, month)` group occurring in the daily data, whose
rainfall is the non-null-propagating sum of the rainfall values of the
group; in particular an all-null group sums to `0`. -/
theorem monthly_aggregate_correct (d : List DailyRow) (k : MKey) :
    ((calculate_monthly_data d).countP fun m => mRowKey m = k)
        = (if k ∈ d.map monthKey then 1 else 0)
      ∧ (∀ m ∈ calculate_monthly_data d,
          m.rainfall = sumRain (d.filter fun r => monthKey r = mRowKey m))
      ∧ (∀ m ∈ calculate_monthly_data d,
          (∀ r ∈ d, monthKey r = mRowKey m → r.rainfall = none) →
            m.rainfall = 0) := by
  refine ⟨?_, fun m hm => monthly_rainfall_eq hm, fun m hm hall => ?_⟩
  · unfold calculate_monthly_data
    rw [List.countP_map]
    have he : ((fun m => decide (mRowKey m = k)) ∘ fun k' : MKey =>
        (⟨k'.1, k'.2.1, k'.2.2,
          sumRain (d.filter fun r => monthKey r = k')⟩ : MonthlyRow))
        = fun k' => decide (k' = k) := rfl
    rw [he, countP_eq_ite_of_nodup k (monthlyKeys_nodup d)]
    by_cases hk : k ∈ d.map monthKey
    · rw [if_pos (mem_monthlyKeys.mpr hk), if_pos hk]
    · rw [if_neg (fun h => hk (mem_monthlyKeys.mp h)), if_neg hk]
  · rw [monthly_rainfall_eq hm]
    exact sumRain_eq_zero fun r hr => by
      rcases List.mem_filter.mp hr with ⟨hrd, hrk⟩
      exact hall r hrd (by exact_mod_cast of_decide_eq_true hrk)

/-- C9: the monthly and yearly aggregators are pure functions of the input
record set: they mutate nothing (they are Lean functions of their input),
equal inputs give equal outputs, and reordering the input rows does not
change the emitted rows. -/
theorem aggregates_pure (d₁ d₂ : List DailyRow) (h : List.Perm d₁ d₂) :
    calculate_monthly_data d₁ = calculate_monthly_data d₂
      ∧ calculate_yearly_data d₁ = calculate_yearly_data d₂ := by
  constructor
  · unfold calculate_monthly_data
    have hkeys : List.insertionSort mkeyLE (d₁.map monthKey).dedup
        = List.insertionSort mkeyLE (d₂.map monthKey).dedup := by
      refine List.eq_of_perm_of_sorted ?_ (List.sorted_insertionSort _ _)
        (List.sorted_insertionSort _ _)
      exact ((List.perm_insertionSort _ _).trans
        ((h.map monthKey).dedup)).trans (List.perm_insertionSort _ _).symm
    rw [hkeys]
    refine List.map_congr_left fun k _ => ?_
    have hp : List.Perm (d₁.filter fun r => monthKey r = k)
        (d₂.filter fun r => monthKey r = k) := h.filter _
    have hsum : sumRain (d₁.filter fun r => monthKey r = k)
        = sumRain (d₂.filter fun r => monthKey r = k) := by
      unfold sumRain
      exact (hp.filterMap _).sum_eq
    rw [hsum]
  · unfold calculate_yearly_data
    have hkeys : List.insertionSort ykeyLE (d₁.map yearKey).dedup
        = List.insertionSort ykeyLE (d₂.map yearKey).dedup := by
      refine List.eq_of_perm_of_sorted ?_ (List.sorted_insertionSort _ _)
        (List.sorted_insertionSort _ _)
      exact ((List.perm_insertionSort _ _).trans
        ((h.map yearKey).dedup)).trans (List.perm_insertionSort _ _).symm
    rw [hkeys]
    refine List.map_congr_left fun k _ => ?_
    have hp : List.Perm (d₁.filter fun r => yearKey r = k)
        (d₂.filter fun r => yearKey r = k) := h.filter _
    have hsum : sumRain (d₁.filter fun r => yearKey r = k)
        = sumRain (d₂.filter fun r => yearKey r = k) := by
      unfold sumRain
      exact (hp.filterMap _).sum_eq
    rw [hsum]

/-- Witness for C9 at a concrete pair of reordered inputs. -/
theorem aggregates_pure_witness :
    calculate_monthly_data
        [⟨"001006", ⟨2024, 2, 1⟩, some 3⟩, ⟨"001006", ⟨2024, 1, 1⟩, some 5⟩]
      = calculate_monthly_data
        [⟨"001006", ⟨2024, 1, 1⟩, some 5⟩, ⟨"001006", ⟨2024, 2, 1⟩, some 3⟩]
    ∧ calculate_yearly_data
        [⟨"001006", ⟨2024, 2, 1⟩, some 3⟩, ⟨"001006", ⟨2024, 1, 1⟩, some 5⟩]
      = calculate_yearly_data
        [⟨"001006", ⟨2024, 1, 1⟩, some 5⟩, ⟨"001006", ⟨2024, 2, 1⟩, some 3⟩] :=
  aggregates_pure _ _
    (List.Perm.swap (⟨"001006", ⟨2024, 1, 1⟩, some 5⟩ : DailyRow)
      (⟨"001006", ⟨2024, 2, 1⟩, some 3⟩ : DailyRow) [])

/-!  ## Summing over group fibers  -/

lemma filterMap_sum_split {α : Type} (f : α → Option ℚ) (p : α → Bool) (l : List α) :
    (l.filterMap f).sum
      = ((l.filter p).filterMap f).sum + ((l.filter fun x => !(p x)).filterMap f).sum := by
  induction l with
  | nil => simp
  | cons a l ih =>
      by_cases hp : p a
      · have h1 : List.filter p (a :: l) = a :: List.filter p l := by
          simp [List.filter_cons, hp]
        have h2 : List.filter (fun x => !(p x)) (a :: l)
            = List.filter (fun x => !(p x)) l := by
          simp [List.filter_cons, hp]
        cases hf : f a with
        | none =>
            rw [List.filterMap_cons, hf, h1, h2, List.filterMap_cons, hf]
            exact ih
        | some v =>
            rw [List.filterMap_cons, hf, h1, h2, List.filterMap_cons, hf,
              List.sum_cons, List.sum_cons, ih]
            ring
      · have h1 : List.filter p (a :: l) = List.filter p l := by
          simp [List.filter_cons, hp]
        have h2 : List.filter (fun x => !(p x)) (a :: l)
            = a :: List.filter (fun x => !(p x)) l := by
          simp [List.filter_cons, hp]
        cases hf : f a with
        | none =>
            rw [List.filterMap_cons, hf, h1, h2, List.filterMap_cons, hf]
            exact ih
        | some v =>
            rw [List.filterMap_cons, hf, h1, h2, List.filterMap_cons, hf,
              List.sum_cons, List.sum_cons, ih]
            ring

lemma sum_over_groups {α β : Type} [DecidableEq β] (g : α → β) (f : α → Option ℚ) :
    ∀ (ms : List β) (l : List α), ms.Nodup → (∀ x ∈ l, g x ∈ ms) →
      (ms.map fun m => ((l.filter fun x => g x = m).filterMap f).sum).sum
        = (l.filterMap f).sum := by
  intro ms
  induction ms with
  | nil =>
      intro l _ hcov
      have hl : l = [] :=
        List.eq_nil_iff_forall_not_mem.mpr fun x hx => by simpa using hcov x hx
      subst hl
      simp
  | cons m ms ih =>
      intro l hnd hcov
      rcases List.nodup_cons.mp hnd with ⟨hm, hnd'⟩
      rw [List.map_cons, List.sum_cons,
        filterMap_sum_split f (fun x => g x = m) l]
      congr 1
      have hcov' : ∀ x ∈ l.filter fun x => !(decide (g x = m)), g x ∈ ms := by
        intro x hx
        rcases List.mem_filter.mp hx with ⟨hxl, hxm⟩
        rcases List.mem_cons.mp (hcov x hxl) with h | h
        · exfalso
          have hne : ¬(g x = m) := by simpa using hxm
          exact hne h
        · exact h
      rw [← ih (l.filter fun x => !(decide (g x = m))) hnd' hcov']
      refine congrArg List.sum (List.map_congr_left fun m' hm' => ?_)
      have hmm : m' ≠ m := fun h => hm (h ▸ hm')
      have hfl : List.filter (fun x => decide (g x = m'))
            (List.filter (fun x => !(decide (g x = m))) l)
          = List.filter (fun x => decide (g x = m')) l := by
        rw [List.filter_filter]
        refine List.filter_congr fun x _ => ?_
        by_cases hx : g x = m'
        · have hgm : ¬(g x = m) := fun h => hmm (hx.symm.trans h)
          simp [hx, hgm, hmm]
        · simp [hx]
      rw [hfl]

lemma filter_eq_of_nodup {α : Type} [DecidableEq α] {l : List α} (k : α)
    (h : l.Nodup) : (l.filter fun x => x = k) = if k ∈ l then [k] else [] := by
  induction l with
  | nil => simp
  | cons a l ih =>
      rcases List.nodup_cons.mp h with ⟨ha, hl⟩
      rw [List.filter_cons]
      by_cases hk : a = k
      · subst hk
        simp [ha, ih hl]
      · have hka : ¬k = a := fun h' => hk h'.symm
        simp [hk, ih hl, List.mem_cons, hka]

lemma yearly_rainfall_sum (d : List DailyRow) (s : String) (y : Int) :
    (((calculate_yearly_data d).filter fun r => yRowKey r = (s, y)).map
        fun r => r.rainfall).sum
      = sumRain (d.filter fun r => yearKey r = (s, y)) := by
  unfold calculate_yearly_data
  rw [List.filter_map, List.map_map]
  have he : ((fun r : YearlyRow => decide (yRowKey r = (s, y))) ∘ fun k : YKey =>
      (⟨k.1, k.2, sumRain (d.filter fun r => yearKey r = k)⟩ : YearlyRow))
      = fun k => decide (k = (s, y)) := rfl
  rw [he, filter_eq_of_nodup (s, y) (yearlyKeys_nodup d)]
  by_cases hk : (s, y) ∈ List.insertionSort ykeyLE (d.map yearKey).dedup
  · rw [if_pos hk]
    simp
  · rw [if_neg hk]
    have hempty : (d.filter fun r => yearKey r = (s, y)) = [] := by
      refine List.eq_nil_iff_forall_not_mem.mpr fun r hr => ?_
      rcases List.mem_filter.mp hr with ⟨hrd, hrk⟩
      exact hk (mem_yearlyKeys.mpr (List.mem_map.mpr
        ⟨r, hrd, of_decide_eq_true hrk⟩))
    rw [hempty]
    rfl

/-!  ## Claim theorem, C2  -/

/-- C2: for every station and year, the yearly aggregate equals the sum of
the monthly aggregates of that station over the months of that year, both
being the sum of the non-null daily rainfall of that station and year; on
the worked example the monthly rows are `(001006,2024,1,5)` and
`(001006,2024,2,3)` and the yearly row is `(001006,2024,8)`. -/
theorem yearly_eq_sum_of_monthly (d : List DailyRow) (s : String) (y : Int) :
    ((((calculate_yearly_data d).filter fun r => yRowKey r = (s, y)).map
        fun r => r.rainfall).sum
      = (((calculate_monthly_data d).filter
            fun m => m.station_id = s ∧ m.year = y).map
          fun m => m.rainfall).sum)
    ∧ calculate_monthly_data (process_daily_data
        [⟨⟨2024, 1, 1⟩, some 5⟩, ⟨⟨2024, 1, 2⟩, some 0⟩, ⟨⟨2024, 2, 1⟩, some 3⟩]
        "001006")
      = [⟨"001006", 2024, 1, 5⟩, ⟨"001006", 2024, 2, 3⟩]
    ∧ calculate_yearly_data (process_daily_data
        [⟨⟨2024, 1, 1⟩, some 5⟩, ⟨⟨2024, 1, 2⟩, some 0⟩, ⟨⟨2024, 2, 1⟩, some 3⟩]
        "001006")
      = [⟨"001006", 2024, 8⟩] := by
  refine ⟨?_, ?_, ?_⟩
  · rw [yearly_rainfall_sum]
    unfold calculate_monthly_data
    rw [List.filter_map, List.map_map]
    have he : ((fun m : MonthlyRow => decide (m.station_id = s ∧ m.year = y))
        ∘ fun k : MKey => (⟨k.1, k.2.1, k.2.2,
            sumRain (d.filter fun r => monthKey r = k)⟩ : MonthlyRow))
        = fun k => decide (k.1 = s ∧ k.2.1 = y) := rfl
    rw [he]
    set ms := (List.insertionSort mkeyLE (d.map monthKey).dedup).filter
      fun k => k.1 = s ∧ k.2.1 = y with hms
    set l := d.filter fun r => yearKey r = (s, y) with hl
    have hnd : ms.Nodup := (monthlyKeys_nodup d).filter _
    have hcov : ∀ x ∈ l, monthKey x ∈ ms := by
      intro x hx
      rcases List.mem_filter.mp hx with ⟨hxd, hxk⟩
      have hky : yearKey x = (s, y) := of_decide_eq_true hxk
      refine List.mem_filter.mpr ⟨mem_monthlyKeys.mpr (List.mem_map.mpr
        ⟨x, hxd, rfl⟩), ?_⟩
      have h1 : x.station_id = s := congrArg Prod.fst hky
      have h2 : x.date.year = y := congrArg Prod.snd hky
      exact decide_eq_true (by exact ⟨h1, h2⟩)
    have hmain := sum_over_groups monthKey (fun r : DailyRow => r.rainfall)
      ms l hnd hcov
    have hfib : ∀ k ∈ ms,
        (d.filter fun r => monthKey r = k) = l.filter fun r => monthKey r = k := by
      intro k hk
      rcases List.mem_filter.mp hk with ⟨_, hsy⟩
      have hsy' : k.1 = s ∧ k.2.1 = y := of_decide_eq_true hsy
      rw [hl, List.filter_filter]
      refine (List.filter_congr fun x _ => ?_).symm
      by_cases hx : monthKey x = k
      · have hyk : yearKey x = (s, y) := by
          have h1 : x.station_id = k.1 := congrArg Prod.fst hx
          have h2 : x.date.year = k.2.1 := congrArg (fun p : MKey => p.2.1) hx
          unfold yearKey
          rw [h1, h2, hsy'.1, hsy'.2]
        simp [hx, hyk]
      · simp [hx]
    calc sumRain l
        = (l.filterMap fun r => r.rainfall).sum := rfl
      _ = (ms.map fun m =>
            ((l.filter fun x => monthKey x = m).filterMap
              fun r => r.rainfall).sum).sum := hmain.symm
      _ = (ms.map fun k =>
            sumRain (d.filter fun r => monthKey r = k)).sum := by
          refine congrArg List.sum (List.map_congr_left fun k hk => ?_)
          rw [hfib k hk]
          rfl
  · simp [calculate_monthly_data, process_daily_data, monthKey, sumRain,
      List.dedup, List.insertionSort, List.orderedInsert, mkeyLE]
  · simp [calculate_yearly_data, process_daily_data, yearKey, sumRain,
      List.dedup, List.insertionSort, List.orderedInsert, ykeyLE]
    norm_num

/-!  ## Lemmas about the upsert loader  -/

section Upsert

variable {κ ν : Type} [DecidableEq κ]

lemma containsKey_iff {t : Table κ ν} {k : κ} :
    containsKey t k = true ↔ ∃ p ∈ t, p.1 = k := by
  simp [containsKey, List.any_eq_true]

lemma containsKey_map_overwrite (t : Table κ ν) (k k' : κ) (v : ν) :
    containsKey (t.map fun p => if p.1 = k then (p.1, v) else p) k'
      = containsKey t k' := by
  unfold containsKey
  rw [List.any_map]
  congr 1
  funext p
  by_cases hp : p.1 = k <;> simp [hp]

lemma containsKey_upsertRow (t : Table κ ν) (k k' : κ) (v : ν) :
    containsKey (upsertRow t k v) k'
      = (containsKey t k' || decide (k' = k)) := by
  unfold upsertRow
  by_cases hc : containsKey t k
  · rw [if_pos hc, containsKey_map_overwrite]
    by_cases hk : k' = k
    · subst hk
      simp [hc]
    · simp [hk]
  · rw [if_neg hc]
    unfold containsKey
    rw [List.any_append]
    have hsing : (List.any [(k, v)] fun p => decide (p.1 = k')) = decide (k' = k) := by
      by_cases hk : k' = k
      · subst hk
        simp
      · have hk' : ¬k = k' := fun h => hk h.symm
        simp [hk, hk']
    rw [hsing]

lemma upsertRow_of_contains {t : Table κ ν} {k : κ} (v : ν)
    (hc : containsKey t k = true) :
    upsertRow t k v = t.map fun p => if p.1 = k then (p.1, v) else p :=
  if_pos hc

lemma upsertRow_of_not_contains {t : Table κ ν} {k : κ} (v : ν)
    (hc : ¬containsKey t k = true) :
    upsertRow t k v = t ++ [(k, v)] :=
  if_neg hc

lemma upsertRow_absorb (t : Table κ ν) (k : κ) (v v' : ν) :
    upsertRow (upsertRow t k v) k v' = upsertRow t k v' := by
  by_cases hc : containsKey t k
  · rw [upsertRow_of_contains v hc,
      upsertRow_of_contains v' (by rw [containsKey_map_overwrite]; exact hc),
      upsertRow_of_contains v' hc, List.map_map]
    refine List.map_congr_left fun p _ => ?_
    by_cases hp : p.1 = k <;> simp [hp]
  · rw [upsertRow_of_not_contains v hc]
    have hc' : containsKey (t ++ [(k, v)]) k = true := by
      refine containsKey_iff.mpr ⟨(k, v), ?_, rfl⟩
      simp
    rw [upsertRow_of_contains v' hc', upsertRow_of_not_contains v' hc,
      List.map_append]
    have hmap : (t.map fun p => if p.1 = k then (p.1, v') else p) = t := by
      conv_rhs => rw [← List.map_id t]
      refine List.map_congr_left fun p hp => ?_
      have hpk : ¬p.1 = k := fun h => hc (containsKey_iff.mpr ⟨p, hp, h⟩)
      simp [hpk]
    rw [hmap]
    simp

lemma containsKey_append (t u : Table κ ν) (k : κ) :
    containsKey (t ++ u) k = (containsKey t k || containsKey u k) := by
  unfold containsKey
  exact List.any_append

lemma upsertRow_comm {t : Table κ ν} {k k' : κ} (v v' : ν)
    (hck : containsKey t k = true) (hne : k' ≠ k) :
    upsertRow (upsertRow t k v) k' v' = upsertRow (upsertRow t k' v') k v := by
  by_cases hc' : containsKey t k'
  · rw [upsertRow_of_contains v hck, upsertRow_of_contains v' hc',
      upsertRow_of_contains v' (by rw [containsKey_map_overwrite]; exact hc'),
      upsertRow_of_contains v (by rw [containsKey_map_overwrite]; exact hck),
      List.map_map, List.map_map]
    have hkk' : ¬k = k' := fun h => hne h.symm
    refine List.map_congr_left fun p _ => ?_
    by_cases hp : p.1 = k
    · have hpk' : ¬p.1 = k' := fun h => hne (h.symm.trans hp)
      simp [hp, hpk', hkk', hne]
    · by_cases hp' : p.1 = k' <;> simp [hp, hp', hkk', hne]
  · have h1 : containsKey (t.map fun p => if p.1 = k then (p.1, v) else p) k'
        = false := by
      rw [containsKey_map_overwrite]
      simpa using hc'
    have h2 : containsKey (t ++ [(k', v')]) k = true := by
      rw [containsKey_append]
      simp [hck]
    rw [upsertRow_of_contains v hck,
      upsertRow_of_not_contains v' (by rw [h1]; simp),
      upsertRow_of_not_contains v' hc',
      upsertRow_of_contains v h2, List.map_append]
    have hkk : ¬(k' = k) := hne
    simp [hkk]

lemma upsertRow_eq_self {t : Table κ ν} {k : κ} {v : ν}
    (hck : containsKey t k = true) (hval : ∀ p ∈ t, p.1 = k → p.2 = v) :
    upsertRow t k v = t := by
  rw [upsertRow_of_contains v hck]
  conv_rhs => rw [← List.map_id t]
  refine List.map_congr_left fun p hp => ?_
  by_cases hkp : p.1 = k
  · have hv := hval p hp hkp
    rw [if_pos hkp, ← hv]
    rfl
  · simp [hkp]

lemma upsertRow_value {t : Table κ ν} (k : κ) (v : ν) :
    ∀ p ∈ upsertRow t k v, p.1 = k → p.2 = v := by
  intro p hp hpk
  by_cases hc : containsKey t k
  · rw [upsertRow_of_contains v hc] at hp
    rcases List.mem_map.mp hp with ⟨q, _, hpq⟩
    by_cases hq1 : q.1 = k
    · rw [if_pos hq1] at hpq
      subst hpq
      rfl
    · rw [if_neg hq1] at hpq
      subst hpq
      exact absurd hpk hq1
  · rw [upsertRow_of_not_contains v hc] at hp
    rcases List.mem_append.mp hp with h | h
    · exact absurd (containsKey_iff.mpr ⟨p, h, hpk⟩) hc
    · rw [List.mem_singleton] at h
      subst h
      rfl

lemma containsKey_upsertList_of (t : Table κ ν) (rs : List (κ × ν)) (k : κ)
    (h : containsKey t k = true) : containsKey (upsertList t rs) k = true := by
  induction rs generalizing t with
  | nil => exact h
  | cons r rs ih =>
      exact ih _ (by rw [containsKey_upsertRow, h]; simp)

lemma upsertList_value_invariant {k : κ} {v : ν} {rs : List (κ × ν)}
    (hnm : k ∉ rs.map Prod.fst) :
    ∀ {t : Table κ ν}, (∀ p ∈ t, p.1 = k → p.2 = v) →
      ∀ p ∈ upsertList t rs, p.1 = k → p.2 = v := by
  induction rs with
  | nil => exact fun hval => hval
  | cons r rs ih =>
      intro t hval
      rw [List.map_cons] at hnm
      have hne : ¬k = r.1 := fun h => hnm (h ▸ List.mem_cons_self _ _)
      have hnm' : k ∉ rs.map Prod.fst := fun h => hnm (List.mem_cons_of_mem _ h)
      refine ih hnm' ?_
      intro p hp hpk
      by_cases hc : containsKey t r.1
      · rw [upsertRow_of_contains r.2 hc] at hp
        rcases List.mem_map.mp hp with ⟨q, hq, hpq⟩
        by_cases hq1 : q.1 = r.1
        · rw [if_pos hq1] at hpq
          subst hpq
          exact absurd (hpk.symm.trans hq1) hne
        · rw [if_neg hq1] at hpq
          subst hpq
          exact hval q hq hpk
      · rw [upsertRow_of_not_contains r.2 hc] at hp
        rcases List.mem_append.mp hp with h | h
        · exact hval p h hpk
        · rw [List.mem_singleton] at h
          subst h
          exact absurd hpk.symm hne

lemma upsertList_upsertRow_mem {k : κ} {v : ν} {rs : List (κ × ν)} :
    ∀ {t : Table κ ν}, containsKey t k = true → k ∈ rs.map Prod.fst →
      upsertList (upsertRow t k v) rs = upsertList t rs := by
  induction rs with
  | nil => exact fun _ hmem => absurd hmem (List.not_mem_nil _)
  | cons r rs ih =>
      intro t hck hmem
      simp only [upsertList]
      by_cases hrk : r.1 = k
      · rw [← hrk] at hck ⊢
        rw [upsertRow_absorb]
      · rw [List.map_cons] at hmem
        have hmem' : k ∈ rs.map Prod.fst := by
          rcases List.mem_cons.mp hmem with h | h
          · exact absurd h.symm hrk
          · exact h
        rw [upsertRow_comm v r.2 hck hrk]
        exact ih (by rw [containsKey_upsertRow, hck]; simp) hmem'

lemma upsertList_upsertRow_not_mem {k : κ} {v : ν} {rs : List (κ × ν)} :
    ∀ {t : Table κ ν}, containsKey t k = true → k ∉ rs.map Prod.fst →
      upsertList (upsertRow t k v) rs = upsertRow (upsertList t rs) k v := by
  induction rs with
  | nil => exact fun _ _ => rfl
  | cons r rs ih =>
      intro t hck hnm
      rw [List.map_cons] at hnm
      have hne : ¬k = r.1 := fun h => hnm (h ▸ List.mem_cons_self _ _)
      have hnm' : k ∉ rs.map Prod.fst := fun h => hnm (List.mem_cons_of_mem _ h)
      simp only [upsertList]
      rw [upsertRow_comm v r.2 hck (fun h => hne h.symm)]
      exact ih (by rw [containsKey_upsertRow, hck]; simp) hnm'

lemma upsertList_idem (t : Table κ ν) (rs : List (κ × ν)) :
    upsertList (upsertList t rs) rs = upsertList t rs := by
  induction rs generalizing t with
  | nil => rfl
  | cons r rs ih =>
      simp only [upsertList]
      have hck : containsKey (upsertList (upsertRow t r.1 r.2) rs) r.1 = true :=
        containsKey_upsertList_of _ _ _ (by rw [containsKey_upsertRow]; simp)
      by_cases hmem : r.1 ∈ rs.map Prod.fst
      · rw [upsertList_upsertRow_mem hck hmem, ih]
      · rw [upsertList_upsertRow_not_mem hck hmem, ih]
        exact upsertRow_eq_self hck
          (upsertList_value_invariant hmem (upsertRow_value r.1 r.2))

lemma executeBatch_eq_some {fail : κ × ν → Bool} {rs : List (κ × ν)}
    (h : ∀ r ∈ rs, fail r = false) (t : Table κ ν) :
    executeBatch fail t rs = some (upsertList t rs) := by
  induction rs generalizing t with
  | nil => rfl
  | cons r rs ih =>
      simp only [executeBatch, upsertList, h r (List.mem_cons_self r rs),
        Bool.false_eq_true, if_false]
      exact ih (fun x hx => h x (List.mem_cons_of_mem _ hx)) _

lemma executeBatch_eq_none_iff {fail : κ × ν → Bool} {rs : List (κ × ν)}
    (t : Table κ ν) :
    executeBatch fail t rs = none ↔ ∃ r ∈ rs, fail r = true := by
  induction rs generalizing t with
  | nil => simp [executeBatch]
  | cons r rs ih =>
      by_cases hf : fail r
      · simp [executeBatch, hf]
      · simp [executeBatch, hf, ih]

lemma insert_data_success {fail : κ × ν → Bool} {rs : List (κ × ν)}
    (h : ∀ r ∈ rs, fail r = false) (C P : Table κ ν) :
    insert_data fail ⟨C, P⟩ rs = (⟨upsertList P rs, upsertList P rs⟩, false) := by
  unfold insert_data
  rw [executeBatch_eq_some h]

lemma insert_data_failure {fail : κ × ν → Bool} {rs : List (κ × ν)}
    (h : ∃ r ∈ rs, fail r = true) (C P : Table κ ν) :
    insert_data fail ⟨C, P⟩ rs = (⟨C, C⟩, true) := by
  unfold insert_data
  rw [(executeBatch_eq_none_iff _).mpr h]

lemma insert_data_idem (fail : κ × ν → Bool) (C : Table κ ν) (rs : List (κ × ν)) :
    insert_data fail (insert_data fail ⟨C, C⟩ rs).1 rs
      = insert_data fail ⟨C, C⟩ rs := by
  by_cases h : ∀ r ∈ rs, fail r = false
  · rw [insert_data_success h C C]
    show insert_data fail ⟨upsertList C rs, upsertList C rs⟩ rs = _
    rw [insert_data_success h, upsertList_idem]
  · have h' : ∃ r ∈ rs, fail r = true := by
      push_neg at h
      rcases h with ⟨r, hr, hr'⟩
      exact ⟨r, hr, by simpa using hr'⟩
    rw [insert_data_failure h' C C]
    show insert_data fail ⟨C, C⟩ rs = _
    rw [insert_data_failure h' C C]

lemma lookupTable_upsertRow_self (t : Table κ ν) (k : κ) (v : ν) :
    lookupTable (upsertRow t k v) k = some v := by
  by_cases hc : containsKey t k
  · rw [upsertRow_of_contains v hc]
    unfold lookupTable
    rw [List.find?_map]
    have hpd : ((fun p : κ × ν => decide (p.1 = k))
        ∘ fun p : κ × ν => if p.1 = k then (p.1, v) else p)
        = fun p : κ × ν => decide (p.1 = k) := by
      funext p
      by_cases hp : p.1 = k <;> simp [hp]
    rw [hpd]
    rcases containsKey_iff.mp hc with ⟨p, hp, hpk⟩
    have hsome : (t.find? fun p : κ × ν => decide (p.1 = k)).isSome := by
      rw [List.find?_isSome]
      exact ⟨p, hp, by simpa using hpk⟩
    rcases Option.isSome_iff_exists.mp hsome with ⟨q, hq⟩
    have hqk : q.1 = k := by simpa using List.find?_some hq
    rw [hq]
    simp [hqk]
  · rw [upsertRow_of_not_contains v hc]
    unfold lookupTable
    rw [List.find?_append]
    have hnone : (t.find? fun p : κ × ν => decide (p.1 = k)) = none := by
      rw [List.find?_eq_none]
      intro x hx hpx
      exact hc (containsKey_iff.mpr ⟨x, hx, by simpa using hpx⟩)
    rw [hnone]
    simp

lemma lookupTable_upsertRow_ne (t : Table κ ν) {k k' : κ} (v : ν)
    (hne : k ≠ k') : lookupTable (upsertRow t k' v) k = lookupTable t k := by
  by_cases hc : containsKey t k'
  · rw [upsertRow_of_contains v hc]
    unfold lookupTable
    rw [List.find?_map]
    have hpd : ((fun p : κ × ν => decide (p.1 = k))
        ∘ fun p : κ × ν => if p.1 = k' then (p.1, v) else p)
        = fun p : κ × ν => decide (p.1 = k) := by
      funext p
      by_cases hp : p.1 = k' <;> simp [hp]
    rw [hpd]
    cases hq : t.find? fun p : κ × ν => decide (p.1 = k) with
    | none => rfl
    | some q =>
        have hqk : q.1 = k := by simpa using List.find?_some hq
        have hqk' : ¬q.1 = k' := fun h => hne (hqk.symm.trans h)
        simp [hqk']
  · rw [upsertRow_of_not_contains v hc]
    unfold lookupTable
    rw [List.find?_append]
    cases hq : t.find? fun p : κ × ν => decide (p.1 = k) with
    | none =>
        have hne' : ¬k' = k := fun h => hne h.symm
        simp [hne']
    | some q => simp

lemma countP_key_upsertRow (t : Table κ ν) (k : κ) (v : ν) :
    ((upsertRow t k v).countP fun p => p.1 = k)
      = if containsKey t k then t.countP fun p => p.1 = k else 1 := by
  by_cases hc : containsKey t k
  · rw [if_pos hc, upsertRow_of_contains v hc, List.countP_map]
    congr 1
    funext p
    by_cases hp : p.1 = k <;> simp [hp]
  · rw [if_neg hc, upsertRow_of_not_contains v hc, List.countP_append]
    have h0 : (t.countP fun p => p.1 = k) = 0 := by
      rw [List.countP_eq_zero]
      intro p hp hpk
      exact hc (containsKey_iff.mpr ⟨p, hp, of_decide_eq_true hpk⟩)
    rw [h0]
    simp

lemma lookupTable_upsertList_not_mem {k : κ} :
    ∀ {rs : List (κ × ν)}, k ∉ rs.map Prod.fst →
      ∀ t : Table κ ν, lookupTable (upsertList t rs) k = lookupTable t k := by
  intro rs
  induction rs with
  | nil => exact fun _ _ => rfl
  | cons r rs ih =>
      intro hnm t
      rw [List.map_cons] at hnm
      have hne : k ≠ r.1 := fun h => hnm (h ▸ List.mem_cons_self _ _)
      have hnm' : k ∉ rs.map Prod.fst := fun h => hnm (List.mem_cons_of_mem _ h)
      simp only [upsertList]
      rw [ih hnm' _, lookupTable_upsertRow_ne t r.2 hne]

lemma lookup_upsertList_nodup {rs : List (κ × ν)} (hnd : (rs.map Prod.fst).Nodup) :
    ∀ t : Table κ ν, ∀ r ∈ rs, lookupTable (upsertList t rs) r.1 = some r.2 := by
  induction rs with
  | nil => exact fun t r hr => absurd hr (List.not_mem_nil r)
  | cons r₀ rs ih =>
      intro t r hr
      rw [List.map_cons, List.nodup_cons] at hnd
      rcases hnd with ⟨h₀, hnd'⟩
      rcases List.mem_cons.mp hr with rfl | hr'
      · simp only [upsertList]
        rw [lookupTable_upsertList_not_mem h₀ _, lookupTable_upsertRow_self]
      · simp only [upsertList]
        exact ih hnd' _ r hr'

end Upsert

/-!  ## Claim theorems, C5, C8 and C3  -/

/-- C5: upserting the same daily key twice with different rainfall values
leaves exactly one row for that key, holding the second value; the table is
assumed to satisfy its uniqueness constraint (at most one row per key). -/
theorem daily_upsert_twice (t : Table DKey (Option ℚ)) (k : DKey)
    (v₁ v₂ : Option ℚ) (huniq : (t.countP fun p => p.1 = k) ≤ 1)
    (hne : v₁ ≠ v₂) :
    ((upsertRow (upsertRow t k v₁) k v₂).countP fun p => p.1 = k) = 1
      ∧ lookupTable (upsertRow (upsertRow t k v₁) k v₂) k = some v₂ := by
  constructor
  · rw [upsertRow_absorb, countP_key_upsertRow]
    by_cases hc : containsKey t k
    · rw [if_pos hc]
      rcases containsKey_iff.mp hc with ⟨p, hp, hpk⟩
      have h1 : 0 < t.countP fun p => p.1 = k :=
        List.countP_pos_iff.mpr ⟨p, hp, by simpa using hpk⟩
      omega
    · rw [if_neg hc]
  · rw [upsertRow_absorb, lookupTable_upsertRow_self]

/-- Witness for C5: an empty daily table, the key `(001006, 2024-01-01)`,
first value `5`, second value `7`. -/
theorem daily_upsert_twice_witness :
    ((upsertRow (upsertRow ([] : Table DKey (Option ℚ))
          ("001006", ⟨2024, 1, 1⟩) (some 5)) ("001006", ⟨2024, 1, 1⟩)
          (some 7)).countP fun p => p.1 = ("001006", ⟨2024, 1, 1⟩)) = 1
      ∧ lookupTable (upsertRow (upsertRow ([] : Table DKey (Option ℚ))
          ("001006", ⟨2024, 1, 1⟩) (some 5)) ("001006", ⟨2024, 1, 1⟩)
          (some 7)) ("001006", ⟨2024, 1, 1⟩) = some (some 7) :=
  daily_upsert_twice [] ("001006", ⟨2024, 1, 1⟩) (some 5) (some 7)
    (by decide) (by norm_num)

/-- C8: when an upsert hits an existing row with the same conflict key, the
replace action overwrites only the stored rainfall value of that row: the
table keeps its length, every row keeps its key, and every row with a
different key is untouched. -/
theorem upsert_frame {κ ν : Type} [DecidableEq κ] (t : Table κ ν) (k : κ)
    (v : ν) (hc : containsKey t k = true) :
    (upsertRow t k v).length = t.length
      ∧ ∀ i : Nat, (upsertRow t k v)[i]?
          = t[i]?.map fun p => if p.1 = k then (p.1, v) else p := by
  rw [upsertRow_of_contains v hc]
  exact ⟨List.length_map t _, fun i => List.getElem?_map _ t i⟩

/-- Witness for C8 on a two-row monthly table with a conflicting key. -/
theorem upsert_frame_witness :
    (upsertRow [((("001006", 2024, 1) : MKey), (5 : ℚ)),
        ((("001006", 2024, 2) : MKey), (3 : ℚ))] ("001006", 2024, 1)
        (7 : ℚ)).length
      = [((("001006", 2024, 1) : MKey), (5 : ℚ)),
          ((("001006", 2024, 2) : MKey), (3 : ℚ))].length
    ∧ ∀ i : Nat,
        (upsertRow [((("001006", 2024, 1) : MKey), (5 : ℚ)),
            ((("001006", 2024, 2) : MKey), (3 : ℚ))] ("001006", 2024, 1)
            (7 : ℚ))[i]?
          = ([((("001006", 2024, 1) : MKey), (5 : ℚ)),
              ((("001006", 2024, 2) : MKey), (3 : ℚ))][i]?).map
              fun p => if p.1 = ("001006", 2024, 1) then (p.1, (7 : ℚ)) else p :=
  upsert_frame _ _ _ (by decide)

/-- C3: one `insert_data` call either commits the upsert of every record it
was given or, when some record is rejected, rolls back to exactly the
committed state it started from and re-raises; and no cross-table
atomicity: on the worked example with a store rejecting monthly records,
the daily table commits, the monthly table is left as it was, and the
error still reaches the driver. -/
theorem insert_data_atomic {κ ν : Type} [DecidableEq κ] (fail : κ × ν → Bool)
    (C : Table κ ν) (rs : List (κ × ν)) :
    ((∃ r ∈ rs, fail r = true) → insert_data fail ⟨C, C⟩ rs = (⟨C, C⟩, true))
      ∧ ((∀ r ∈ rs, fail r = false) →
          insert_data fail ⟨C, C⟩ rs
            = (⟨upsertList C rs, upsertList C rs⟩, false))
      ∧ (process_zip_file rejectMonthly exArchive emptyDB).1.daily.committed ≠ []
      ∧ (process_zip_file rejectMonthly exArchive emptyDB).1.monthly.committed = []
      ∧ (process_zip_file rejectMonthly exArchive emptyDB).2
          = some PipeError.loadError := by
  refine ⟨fun h => insert_data_failure h C C, fun h => insert_data_success h C C,
    ?_, ?_, ?_⟩
  · decide
  · decide
  · decide

/-!  ## Idempotence of the whole per-archive pipeline  -/

lemma process_zip_file_idem (fm : FailModel) (a : Archive) (db : DB)
    (hwf : db.wf) :
    process_zip_file fm a (process_zip_file fm a db).1
      = process_zip_file fm a db := by
  obtain ⟨⟨Dc, Dp⟩, ⟨Mc, Mp⟩, ⟨Yc, Yp⟩⟩ := db
  obtain ⟨hd, hm, hy⟩ := hwf
  replace hd : Dp = Dc := hd
  replace hm : Mp = Mc := hm
  replace hy : Yp = Yc := hy
  subst hd
  subst hm
  subst hy
  cases hcsv : findCsv a with
  | none => simp [process_zip_file, hcsv]
  | some mem =>
      by_cases h1 : ∀ r ∈ (process_daily_data mem.2
          (stationIdOf a.name)).map dailyTuple, fm.dailyFail r = false
      · by_cases h2 : ∀ r ∈ (calculate_monthly_data (process_daily_data mem.2
            (stationIdOf a.name))).map monthlyTuple, fm.monthlyFail r = false
        · by_cases h3 : ∀ r ∈ (calculate_yearly_data (process_daily_data mem.2
              (stationIdOf a.name))).map yearlyTuple, fm.yearlyFail r = false
          · simp [process_zip_file, hcsv, insert_data_success h1,
              insert_data_success h2, insert_data_success h3, upsertList_idem]
          · have h3' : ∃ r ∈ (calculate_yearly_data (process_daily_data mem.2
                (stationIdOf a.name))).map yearlyTuple,
                fm.yearlyFail r = true := by
              push_neg at h3
              rcases h3 with ⟨r, hr, hr'⟩
              exact ⟨r, hr, by simpa using hr'⟩
            simp [process_zip_file, hcsv, insert_data_success h1,
              insert_data_success h2, insert_data_failure h3', upsertList_idem]
        · have h2' : ∃ r ∈ (calculate_monthly_data (process_daily_data mem.2
              (stationIdOf a.name))).map monthlyTuple,
              fm.monthlyFail r = true := by
            push_neg at h2
            rcases h2 with ⟨r, hr, hr'⟩
            exact ⟨r, hr, by simpa using hr'⟩
          simp [process_zip_file, hcsv, insert_data_success h1,
            insert_data_failure h2', upsertList_idem]
      · have h1' : ∃ r ∈ (process_daily_data mem.2
            (stationIdOf a.name)).map dailyTuple, fm.dailyFail r = true := by
          push_neg at h1
          rcases h1 with ⟨r, hr, hr'⟩
          exact ⟨r, hr, by simpa using hr'⟩
        simp [process_zip_file, hcsv, insert_data_failure h1']

lemma main_single_db (fm : FailModel) (a : Archive) (db : DB)
    (hz : strEndsWith a.name "_rainfall.zip" = true) :
    (main fm [a] db).db = (process_zip_file fm a db).1 := by
  cases hp : process_zip_file fm a db with
  | mk db1 e =>
      cases e with
      | none => simp [main, List.filter_cons, hz, mainLoop, hp]
      | some err => simp [main, List.filter_cons, hz, mainLoop, hp]

lemma main_single_db_skip (fm : FailModel) (a : Archive) (db : DB)
    (hz : strEndsWith a.name "_rainfall.zip" = false) :
    (main fm [a] db).db = db := by
  simp [main, List.filter_cons, hz, mainLoop]

/-- C6: running the pipeline a second time over the same archive, without
moving it in between, leaves every table exactly as the first run left it
(whether or not individual inserts fail, since a record the store rejects
once is rejected again). -/
theorem pipeline_idempotent (fm : FailModel) (a : Archive) (db : DB)
    (hwf : db.wf) :
    (main fm [a] (main fm [a] db).db).db = (main fm [a] db).db := by
  cases hz : strEndsWith a.name "_rainfall.zip" with
  | false => rw [main_single_db_skip fm a db hz, main_single_db_skip fm a db hz]
  | true =>
      rw [main_single_db fm a db hz, main_single_db fm a _ hz]
      exact congrArg Prod.fst (process_zip_file_idem fm a db hwf)

/-- Witness for C6: the worked example archive over the empty store. -/
theorem pipeline_idempotent_witness :
    (main acceptAll [exArchive] (main acceptAll [exArchive] emptyDB).db).db
      = (main acceptAll [exArchive] emptyDB).db :=
  pipeline_idempotent acceptAll exArchive emptyDB ⟨rfl, rfl, rfl⟩

/-!  ## The driver loop as a trace  -/

lemma mainLoop_spec (fm : FailModel) :
    ∀ (as : List Archive) (st : DriverState),
      (mainLoop fm as st).processedDir
          = st.processedDir
            ++ (((runTrace fm as st.db).1.filter fun p => p.2).map fun p => p.1)
        ∧ (mainLoop fm as st).db = (runTrace fm as st.db).2
        ∧ (mainLoop fm as st).dataDir
          = (((runTrace fm as st.db).1.filter fun p => p.2).map
              fun p => p.1).foldl (fun d n => d.erase n) st.dataDir := by
  intro as
  induction as with
  | nil => exact fun st => ⟨by simp [mainLoop, runTrace], rfl, rfl⟩
  | cons a rest ih =>
      intro st
      cases hp : process_zip_file fm a st.db with
      | mk db1 e =>
          cases e with
          | none =>
              have hstep : mainLoop fm (a :: rest) st
                  = mainLoop fm rest ⟨st.dataDir.erase a.name,
                      st.processedDir ++ [a.name], db1⟩ := by
                simp [mainLoop, hp]
              have htr : runTrace fm (a :: rest) st.db
                  = ((a.name, true) :: (runTrace fm rest db1).1,
                      (runTrace fm rest db1).2) := by
                simp [runTrace, hp]
              rcases ih ⟨st.dataDir.erase a.name,
                st.processedDir ++ [a.name], db1⟩ with ⟨ih1, ih2, ih3⟩
              refine ⟨?_, ?_, ?_⟩
              · rw [hstep, ih1, htr]
                simp
              · rw [hstep, ih2, htr]
              · rw [hstep, ih3, htr]
                simp
          | some err =>
              have hstep : mainLoop fm (a :: rest) st
                  = mainLoop fm rest ⟨st.dataDir, st.processedDir, db1⟩ := by
                simp [mainLoop, hp]
              have htr : runTrace fm (a :: rest) st.db
                  = ((a.name, false) :: (runTrace fm rest db1).1,
                      (runTrace fm rest db1).2) := by
                simp [runTrace, hp]
              rcases ih ⟨st.dataDir, st.processedDir, db1⟩ with ⟨ih1, ih2, ih3⟩
              refine ⟨?_, ?_, ?_⟩
              · rw [hstep, ih1, htr]
                simp
              · rw [hstep, ih2, htr]
              · rw [hstep, ih3, htr]
                simp

lemma mem_foldl_erase :
    ∀ (S : List String) (d : List String), d.Nodup → ∀ n : String,
      (n ∈ S.foldl (fun d n => d.erase n) d ↔ n ∈ d ∧ n ∉ S) := by
  intro S
  induction S with
  | nil =>
      intro d _ n
      simp
  | cons s S ih =>
      intro d hnd n
      rw [List.foldl_cons]
      rw [ih (d.erase s) (hnd.erase s) n]
      rw [hnd.mem_erase_iff]
      constructor
      · rintro ⟨⟨hns, hnd'⟩, hnS⟩
        exact ⟨hnd', by simp [List.mem_cons, hns, hnS]⟩
      · rintro ⟨hnd', hnS⟩
        rw [List.mem_cons] at hnS
        push_neg at hnS
        exact ⟨⟨hnS.1, hnd'⟩, hnS.2⟩

lemma mem_successNames {tr : List (String × Bool)} {n : String} :
    n ∈ (tr.filter fun p => p.2).map (fun p => p.1) ↔ (n, true) ∈ tr := by
  constructor
  · intro h
    rcases List.mem_map.mp h with ⟨p, hp, rfl⟩
    rcases List.mem_filter.mp hp with ⟨hptr, hp2⟩
    have hpe : p = (p.1, true) := by
      have h2 : p.2 = true := hp2
      rw [← h2]
    exact hpe ▸ hptr
  · intro h
    exact List.mem_map.mpr ⟨(n, true), List.mem_filter.mpr ⟨h, rfl⟩, rfl⟩

/-- C4: the driver relocates an archive into the processed directory
exactly when processing it succeeded (all three upserts returned without
error); a failed archive stays in the data directory; and every pending
archive is attempted, the final store state being the fold over the whole
enumeration. -/
theorem driver_moves_iff_success (fm : FailModel) (dirListing : List Archive)
    (db : DB) (hnd : (dirListing.map fun a => a.name).Nodup) :
    (main fm dirListing db).processedDir
        = (((runTrace fm (dirListing.filter fun a =>
              strEndsWith a.name "_rainfall.zip") db).1.filter
            fun p => p.2).map fun p => p.1)
      ∧ (main fm dirListing db).db
          = (runTrace fm (dirListing.filter fun a =>
              strEndsWith a.name "_rainfall.zip") db).2
      ∧ ∀ n, n ∈ (main fm dirListing db).dataDir ↔
          ((n ∈ dirListing.map fun a => a.name)
            ∧ (n, true) ∉ (runTrace fm (dirListing.filter fun a =>
                strEndsWith a.name "_rainfall.zip") db).1) := by
  rcases mainLoop_spec fm (dirListing.filter fun a =>
      strEndsWith a.name "_rainfall.zip")
    ⟨dirListing.map fun a => a.name, [], db⟩ with ⟨h1, h2, h3⟩
  refine ⟨by simpa [main] using h1, by simpa [main] using h2, fun n => ?_⟩
  have hmem := mem_foldl_erase
    (((runTrace fm (dirListing.filter fun a =>
        strEndsWith a.name "_rainfall.zip") db).1.filter fun p => p.2).map
      fun p => p.1) (dirListing.map fun a => a.name) hnd n
  rw [show (main fm dirListing db).dataDir
      = (((runTrace fm (dirListing.filter fun a =>
            strEndsWith a.name "_rainfall.zip") db).1.filter fun p => p.2).map
          fun p => p.1).foldl (fun d n => d.erase n)
          (dirListing.map fun a => a.name) from by simpa [main] using h3]
  rw [hmem, mem_successNames]

/-- Witness for C4: a one-archive directory with a store rejecting monthly
records, so the archive fails and stays in the data directory. -/
theorem driver_moves_iff_success_witness :
    (main rejectMonthly [exArchive] emptyDB).processedDir
        = (((runTrace rejectMonthly ([exArchive].filter fun a =>
              strEndsWith a.name "_rainfall.zip") emptyDB).1.filter
            fun p => p.2).map fun p => p.1)
      ∧ (main rejectMonthly [exArchive] emptyDB).db
          = (runTrace rejectMonthly ([exArchive].filter fun a =>
              strEndsWith a.name "_rainfall.zip") emptyDB).2
      ∧ ∀ n, n ∈ (main rejectMonthly [exArchive] emptyDB).dataDir ↔
          ((n ∈ [exArchive].map fun a => a.name)
            ∧ (n, true) ∉ (runTrace rejectMonthly ([exArchive].filter fun a =>
                strEndsWith a.name "_rainfall.zip") emptyDB).1) :=
  driver_moves_iff_success rejectMonthly [exArchive] emptyDB (by decide)

/-!  ## Claim theorems, C7 and C10  -/

/-- C7: an archive with no member named `*.csv` makes `process_zip_file`
fail without touching the store, and the driver logs the error, leaves the
archive where it is and moves on to the next one; when several members
match, the first in archive-listing order is the one opened. -/
theorem missing_member_fatal (fm : FailModel) (a : Archive) (db : DB) :
    ((a.members.filter fun m => strEndsWith m.1 ".csv") = [] →
        process_zip_file fm a db = (db, some PipeError.missingMember))
      ∧ (∀ m rest, (a.members.filter fun m => strEndsWith m.1 ".csv")
            = m :: rest → findCsv a = some m)
      ∧ ((a.members.filter fun m => strEndsWith m.1 ".csv") = [] →
          ∀ rest st, mainLoop fm (a :: rest) st = mainLoop fm rest st) := by
  refine ⟨fun h => ?_, fun m rest h => ?_, fun h rest st => ?_⟩
  · have hf : findCsv a = none := by
      unfold findCsv
      rw [h]
      rfl
    simp [process_zip_file, hf]
  · unfold findCsv
    rw [h]
    rfl
  · have hf : findCsv a = none := by
      unfold findCsv
      rw [h]
      rfl
    have hp : process_zip_file fm a st.db = (st.db, some .missingMember) := by
      simp [process_zip_file, hf]
    simp [mainLoop, hp]

/-- C10: parsed daily rows with null rainfall are not dropped: the daily
record list keeps one record per CSV row with the nullable rainfall value
intact, and a successful daily insert makes every record retrievable from
the table with its value, null included; nulls are skipped only by the
aggregation sum. -/
theorem daily_nulls_preserved (df : List CsvRow) (sid : String)
    (t : Table DKey (Option ℚ))
    (hnd : ((((process_daily_data df sid).map dailyTuple).map
        Prod.fst).Nodup)) :
    (process_daily_data df sid).length = df.length
      ∧ ((process_daily_data df sid).map fun r => r.rainfall)
          = (df.map fun r => r.rainfall_mm)
      ∧ (∀ r ∈ (process_daily_data df sid).map dailyTuple,
          lookupTable (upsertList t ((process_daily_data df sid).map
            dailyTuple)) r.1 = some r.2)
      ∧ ∀ r rows, r.rainfall = none →
          sumRain (r :: rows) = sumRain rows := by
  refine ⟨List.length_map df _, ?_, ?_, fun r rows hr => ?_⟩
  · unfold process_daily_data
    rw [List.map_map]
    rfl
  · exact fun r hr => lookup_upsertList_nodup hnd t r hr
  · unfold sumRain
    rw [List.filterMap_cons, hr]

/-- Witness for C10: two rows, one with null rainfall, inserted into the
empty daily table. -/
theorem daily_nulls_preserved_witness :
    (process_daily_data [⟨⟨2024, 1, 1⟩, none⟩, ⟨⟨2024, 1, 2⟩, some 5⟩]
        "001006").length
        = ([⟨⟨2024, 1, 1⟩, none⟩, ⟨⟨2024, 1, 2⟩, some 5⟩] : List CsvRow).length
      ∧ ((process_daily_data [⟨⟨2024, 1, 1⟩, none⟩, ⟨⟨2024, 1, 2⟩, some 5⟩]
            "001006").map fun r => r.rainfall)
          = (([⟨⟨2024, 1, 1⟩, none⟩, ⟨⟨2024, 1, 2⟩, some 5⟩] : List CsvRow).map
              fun r => r.rainfall_mm)
      ∧ (∀ r ∈ (process_daily_data [⟨⟨2024, 1, 1⟩, none⟩,
            ⟨⟨2024, 1, 2⟩, some 5⟩] "001006").map dailyTuple,
          lookupTable (upsertList ([] : Table DKey (Option ℚ))
            ((process_daily_data [⟨⟨2024, 1, 1⟩, none⟩,
              ⟨⟨2024, 1, 2⟩, some 5⟩] "001006").map dailyTuple)) r.1
            = some r.2)
      ∧ ∀ r rows, r.rainfall = none →
          sumRain (r :: rows) = sumRain rows :=
  daily_nulls_preserved [⟨⟨2024, 1, 1⟩, none⟩, ⟨⟨2024, 1, 2⟩, some 5⟩]
    "001006" [] (by decide)

end Rainfall

